import Mathlib

/-!
Verification of the markdown ingestion pipeline (`ingest_markdown.py`).

Shallow embedding of the pure core of the repository's markdown ingestion
script: the heading scanner (Python regex `^(#{1,6})\s+(.+)$` with
`re.MULTILINE`, used through `finditer`), the chunk builder
(`chunk_markdown`), the collection-name sanitizer
(`sanitize_collection_name`), and the pure record-building part of `main`
(collection name and per-chunk ids).

Text is modelled as `List Char`.  The regex engine's behaviour is embedded
faithfully for this particular pattern: `^` matches at offset 0 or right
after a `'\n'`; `.` matches any character except `'\n'`; `$` matches at the
end of the text or right before a `'\n'`; `\s` matches whitespace (the
ASCII/Latin-1 whitespace characters; astral Unicode space characters are
outside the fragment modelled here, all inputs considered are ASCII);
quantifiers are greedy with backtracking, and `finditer` returns
non-overlapping matches scanning left to right, resuming after each match
end.  In particular `\s+` may consume line terminators, which is observable
behaviour of the source (e.g. on `"#\nfoo"`).
-/

namespace MdIngest

/-- Whitespace as matched by Python's `\s` and stripped by `str.strip()`,
restricted to the ASCII/Latin-1 range (all inputs considered are ASCII). -/
def pySpace (c : Char) : Bool :=
  c == ' ' || c == '\t' || c == '\n' || c == '\r' || c == '\x0b' || c == '\x0c' ||
  c == '\x1c' || c == '\x1d' || c == '\x1e' || c == '\x1f' || c == '\x85' || c == '\xa0'

/-- Length of the maximal run of characters satisfying `p` at the front of a list. -/
def runLen (p : Char → Bool) : List Char → Nat
  | [] => 0
  | c :: cs => if p c then runLen p cs + 1 else 0

/-- Python `str.strip(...)` with the characters-to-strip set given as a
predicate `p`: drop the maximal run satisfying `p` from the front, then from
the back. -/
def pstrip (p : Char → Bool) (l : List Char) : List Char :=
  ((l.dropWhile p).reverse.dropWhile p).reverse

/-- `re.MULTILINE` `^`: position `s` is the start of the text or follows a `'\n'`. -/
def lineStart (t : List Char) (s : Nat) : Bool :=
  match s with
  | 0 => true
  | q + 1 => t[q]? == '\n'

/-- Backtracking search for the start of group 2 (`.+`): greedy `\s+` first
tries to consume the whole whitespace run ending at `hi`, then gives back one
character at a time (down to `lo`, which keeps `\s+` non-empty) until `.`
can match, i.e. until the candidate position holds a character other than
`'\n'`. -/
def findDot (t : List Char) (lo : Nat) : Nat → Option Nat
  | 0 =>
    if lo = 0 ∧ 0 < t.length ∧ t[0]? ≠ some '\n' then some 0 else none
  | hi + 1 =>
    if hi + 1 < lo then none
    else if hi + 1 < t.length ∧ t[hi + 1]? ≠ some '\n' then some (hi + 1)
    else findDot t lo hi

/-- One regex match: `match.start()`, `match.end()`, `len(match.group(1))`
and `match.group(2)` of the pattern `^(#{1,6})\s+(.+)$`. -/
structure HMatch where
  mstart : Nat
  mstop : Nat
  level : Nat
  label : List Char
deriving Repr, DecidableEq

/-- Attempt of the pattern `^(#{1,6})\s+(.+)$` (MULTILINE) at offset `s`:
`^` requires a line start; greedy `#{1,6}` can only succeed on the whole
`'#'` run (a shorter attempt is followed by another `'#'`, which `\s` cannot
match), so the run must have length 1..6 and be followed by at least one
whitespace character; greedy `\s+` then backtracks via `findDot` until `.`
matches, and greedy `.+` runs to the end of that line, where `$` holds. -/
def matchAt (t : List Char) (s : Nat) : Option HMatch :=
  if lineStart t s then
    let k := runLen (fun c => c == '#') (t.drop s)
    if 1 ≤ k ∧ k ≤ 6 then
      let w := runLen pySpace (t.drop (s + k))
      if 1 ≤ w then
        match findDot t (s + k + 1) (s + k + w) with
        | some j =>
          let m := j + runLen (fun c => !(c == '\n')) (t.drop j)
          some { mstart := s, mstop := m, level := k, label := (t.drop j).take (m - j) }
        | none => none
      else none
    else none
  else none

/-- Leftmost match attempt: try `matchAt` at `pos`, `pos+1`, ...; `fuel`
bounds the number of positions inspected (callers pass enough to reach the
end of the text). -/
def scanFrom (t : List Char) : Nat → Nat → Option HMatch
  | 0, _ => none
  | fuel + 1, pos =>
    match matchAt t pos with
    | some m => some m
    | none => scanFrom t fuel (pos + 1)

/-- `finditer` loop: repeatedly take the leftmost match at or after `pos`
and resume at its end.  Matches of this pattern are never empty, so the scan
position strictly increases. -/
def finditerAux (t : List Char) : Nat → Nat → List HMatch
  | 0, _ => []
  | fuel + 1, pos =>
    match scanFrom t (t.length + 1 - pos) pos with
    | some m => m :: finditerAux t fuel m.mstop
    | none => []

/-- `list(heading_pattern.finditer(text))`. -/
def headingMatches (t : List Char) : List HMatch :=
  finditerAux t (t.length + 1) 0

/-- A chunk as built by `chunk_markdown`: keys `heading`, `level`, `content`. -/
structure Chunk where
  heading : List Char
  level : Nat
  content : List Char
deriving Repr, DecidableEq

/-- The `for i, match in enumerate(matches)` loop of `chunk_markdown`:
each heading's segment runs from its own start offset to the next heading's
start offset (or the end of the text), is stripped, and is emitted only if
non-empty. -/
def chunkLoop (t : List Char) : List HMatch → List Chunk
  | [] => []
  | m :: rest =>
    let e := match rest with
      | m2 :: _ => m2.mstart
      | [] => t.length
    let content := pstrip pySpace ((t.drop m.mstart).take (e - m.mstart))
    let tail := chunkLoop t rest
    if content = [] then tail
    else { heading := pstrip pySpace m.label, level := m.level, content := content } :: tail

/-- `chunk_markdown(text)`. -/
def chunk_markdown (t : List Char) : List Chunk :=
  match headingMatches t with
  | [] =>
    let s := pstrip pySpace t
    if s = [] then [] else [{ heading := "Document".toList, level := 0, content := s }]
  | m :: rest =>
    let pre := pstrip pySpace (t.take m.mstart)
    (if pre = [] then []
     else [{ heading := "Preamble".toList, level := 0, content := pre }]) ++
      chunkLoop t (m :: rest)

/-- Characters kept unchanged by the sanitizer's substitution
(`[^a-zA-Z0-9_-]` is replaced by `'_'`). -/
def allowedChar (c : Char) : Bool :=
  (decide ('a' ≤ c) && decide (c ≤ 'z')) || (decide ('A' ≤ c) && decide (c ≤ 'Z')) ||
  (decide ('0' ≤ c) && decide (c ≤ '9')) || c == '_' || c == '-'

/-- The characters stripped by `name.strip("_-")`. -/
def isUH (c : Char) : Bool := c == '_' || c == '-'

/-- `sanitize_collection_name(name)`. -/
def sanitize_collection_name (name : List Char) : List Char :=
  let n1 := name.map (fun c => if allowedChar c then c else '_')
  let n2 := pstrip isUH n1
  let n3 := if n2 = [] then "documents".toList else n2
  let n4 := if n3.length < 3 then n3 ++ "_collection".toList else n3
  n4.take 63

/-- The id written for chunk index `i`: `f"{basename}_chunk_{i}"`. -/
def chunkId (basename : List Char) (i : Nat) : List Char :=
  basename ++ "_chunk_".toList ++ (Nat.repr i).toList

/-- The `for i, chunk in enumerate(chunks)` loop of `main`, restricted to
the `ids` list it appends to. -/
def idsLoop (basename : List Char) : Nat → List Chunk → List (List Char)
  | _, [] => []
  | i, _ :: rest => chunkId basename i :: idsLoop basename (i + 1) rest

/-- The pure output of one ingestion run that the store call and the
summary depend on: the collection name and the batch of record ids. -/
structure IngestPlan where
  collection : List Char
  ids : List (List Char)
deriving Repr, DecidableEq

/-- The pure part of `main` after the file has been read: derive the
collection name from the basename and build the id for every chunk. -/
def ingestPlan (basename : List Char) (text : List Char) : IngestPlan :=
  { collection := sanitize_collection_name basename
    ids := idsLoop basename 0 (chunk_markdown text) }

/-- The text before the first heading match (the whole text when there is
no match): the span whose trimmed form decides the extra chunk. -/
def preambleOf (t : List Char) : List Char :=
  match headingMatches t with
  | [] => t
  | m :: _ => t.take m.mstart

/-- Modelled from the spec (§4.2 step 3): one chunk per heading, each
heading's content spanning from its start offset to the next heading's
start offset (or the end of the document), trimmed — with no chunk ever
skipped.  Used to compare the spec's wording with the source's loop. -/
def specChunkList (t : List Char) : List HMatch → List Chunk
  | [] => []
  | m :: rest =>
    let e := match rest with
      | m2 :: _ => m2.mstart
      | [] => t.length
    { heading := pstrip pySpace m.label, level := m.level,
      content := pstrip pySpace ((t.drop m.mstart).take (e - m.mstart)) } ::
      specChunkList t rest

/-! Basic facts about `runLen`, `pstrip` and list indexing. -/

theorem runLen_le (p : Char → Bool) : ∀ l : List Char, runLen p l ≤ l.length
  | [] => Nat.le_refl 0
  | c :: cs => by
    simp only [runLen, List.length_cons]
    split
    · exact Nat.succ_le_succ (runLen_le p cs)
    · exact Nat.zero_le _

theorem runLen_cons_pos {p : Char → Bool} {c : Char} (h : p c = true) (cs : List Char) :
    runLen p (c :: cs) = runLen p cs + 1 := by
  simp [runLen, h]

theorem runLen_cons_neg {p : Char → Bool} {c : Char} (h : p c = false) (cs : List Char) :
    runLen p (c :: cs) = 0 := by
  simp [runLen, h]

theorem runLen_cons_posP (p : Char → Bool) (c : Char) (cs : List Char) (h : p c = true) :
    runLen p (c :: cs) = runLen p cs + 1 := runLen_cons_pos h cs

theorem runLen_cons_negP (p : Char → Bool) (c : Char) (cs : List Char) (h : p c = false) :
    runLen p (c :: cs) = 0 := runLen_cons_neg h cs

theorem head_of_runLen_pos {p : Char → Bool} {l : List Char} (h : 0 < runLen p l) :
    ∃ c cs, l = c :: cs ∧ p c = true := by
  cases l with
  | nil => simp [runLen] at h
  | cons c cs =>
    refine ⟨c, cs, rfl, ?_⟩
    by_contra hc
    rw [runLen_cons_neg (Bool.eq_false_iff.mpr hc) cs] at h
    exact Nat.lt_irrefl 0 h

theorem runLen_replicate_append (p : Char → Bool) (a : Char) (hp : p a = true) :
    ∀ (k : Nat) (l : List Char), runLen p (List.replicate k a ++ l) = k + runLen p l
  | 0, l => by simp
  | k + 1, l => by
    rw [List.replicate_succ, List.cons_append, runLen_cons_pos hp,
      runLen_replicate_append p a hp k l]
    omega

theorem runLen_append_all {p : Char → Bool} {c : Char} (hc : p c = false) :
    ∀ (u : List Char), (∀ x ∈ u, p x = true) →
      ∀ l, runLen p (u ++ c :: l) = u.length
  | [], _, l => by simp [runLen_cons_neg hc]
  | x :: xs, hu, l => by
    have hx : p x = true := hu x (by simp)
    rw [List.cons_append, runLen_cons_pos hx,
      runLen_append_all hc xs (fun y hy => hu y (by simp [hy])) l]
    simp

theorem take_runLen (p : Char → Bool) : ∀ l : List Char, l.take (runLen p l) = l.takeWhile p
  | [] => rfl
  | c :: cs => by
    by_cases h : p c = true
    · rw [runLen_cons_pos h, List.take_succ_cons, List.takeWhile_cons_of_pos h, take_runLen p cs]
    · have h' : p c = false := Bool.eq_false_iff.mpr h
      rw [runLen_cons_neg h', List.take_zero, List.takeWhile_cons_of_neg]
      simp [h']

theorem drop_getElem? (l : List Char) : ∀ (m n : Nat), (l.drop m)[n]? = l[m + n]? := by
  induction l with
  | nil => intro m n; simp
  | cons a as ih =>
    intro m n
    cases m with
    | zero => simp
    | succ m' =>
      rw [List.drop_succ_cons, ih m' n]
      have : m' + 1 + n = (m' + n) + 1 := by omega
      rw [this, List.getElem?_cons_succ]

theorem getElem?_head_drop {l : List Char} {s : Nat} {c : Char} (h : l[s]? = some c) :
    ∃ cs, l.drop s = c :: cs := by
  have h0 : (l.drop s)[0]? = some c := by rw [drop_getElem? l s 0]; simpa using h
  cases hd : l.drop s with
  | nil => rw [hd] at h0; simp at h0
  | cons x xs =>
    rw [hd] at h0
    simp only [List.getElem?_cons_zero, Option.some.injEq] at h0
    exact ⟨xs, by rw [h0]⟩

theorem dropWhile_head_false {p : Char → Bool} :
    ∀ (l : List Char) {c : Char} {cs : List Char},
      List.dropWhile p l = c :: cs → p c = false
  | [] => by intro h; simp at h
  | a :: as => by
    intro h
    rw [List.dropWhile_cons] at h
    split at h
    · exact dropWhile_head_false as h
    · next ha =>
      cases h
      exact Bool.eq_false_iff.mpr ha

theorem dropWhile_suffix_ex (p : Char → Bool) :
    ∀ l : List Char, ∃ u, l = u ++ l.dropWhile p ∧ ∀ x ∈ u, p x = true := by
  intro l
  induction l with
  | nil => exact ⟨[], rfl, by simp⟩
  | cons a as ih =>
    by_cases ha : p a = true
    · obtain ⟨u, hu, hall⟩ := ih
      refine ⟨a :: u, ?_, ?_⟩
      · rw [List.dropWhile_cons, if_pos ha, List.cons_append]
        exact congrArg (a :: ·) hu
      · intro x hx
        rcases List.mem_cons.mp hx with h | h
        · subst h; exact ha
        · exact hall x h
    · refine ⟨[], ?_, by simp⟩
      rw [List.dropWhile_cons, if_neg ha, List.nil_append]

theorem pstrip_eq_nil_iff {p : Char → Bool} :
    ∀ {l : List Char}, pstrip p l = [] ↔ ∀ c ∈ l, p c = true := by
  intro l
  induction l with
  | nil => simp [pstrip]
  | cons a as ih =>
    by_cases ha : p a = true
    · have : pstrip p (a :: as) = pstrip p as := by
        simp only [pstrip, List.dropWhile_cons, if_pos ha]
      rw [this, ih]
      constructor
      · intro h c hc
        rcases List.mem_cons.mp hc with h' | h'
        · subst h'; exact ha
        · exact h c h'
      · intro h c hc; exact h c (by simp [hc])
    · have ha' : p a = false := Bool.eq_false_iff.mpr ha
      constructor
      · intro h
        exfalso
        simp only [pstrip, List.dropWhile_cons, if_neg ha] at h
        rw [List.reverse_eq_nil_iff, List.dropWhile_eq_nil_iff] at h
        have : p a = true := h a (by simp)
        rw [ha'] at this; cases this
      · intro h
        have : p a = true := h a (by simp)
        rw [ha'] at this; cases this

theorem pstrip_decomp (p : Char → Bool) (l : List Char) :
    ∃ u v, l.dropWhile p = pstrip p l ++ v ∧ l = u ++ l.dropWhile p := by
  obtain ⟨u, hu, _⟩ := dropWhile_suffix_ex p l
  obtain ⟨w, hw, _⟩ := dropWhile_suffix_ex p (l.dropWhile p).reverse
  refine ⟨u, w.reverse, ?_, hu⟩
  have h := congrArg List.reverse hw
  rw [List.reverse_reverse, List.reverse_append] at h
  exact h

theorem pstrip_head_false {p : Char → Bool} {l : List Char} {c : Char} {cs : List Char}
    (h : pstrip p l = c :: cs) : p c = false := by
  obtain ⟨u, v, hdec, _⟩ := pstrip_decomp p l
  rw [h, List.cons_append] at hdec
  exact dropWhile_head_false _ hdec

theorem pstrip_getLast_false {p : Char → Bool} {l : List Char} {c : Char}
    (h : (pstrip p l).getLast? = some c) : p c = false := by
  unfold pstrip at h
  rw [List.getLast?_reverse] at h
  cases hd : (l.dropWhile p).reverse.dropWhile p with
  | nil => rw [hd] at h; simp at h
  | cons x xs =>
    rw [hd] at h
    simp only [List.head?_cons, Option.some.injEq] at h
    subst h
    exact dropWhile_head_false _ hd

theorem pstrip_mem {p : Char → Bool} {l : List Char} {c : Char}
    (h : c ∈ pstrip p l) : c ∈ l := by
  obtain ⟨u, v, hdec, hl⟩ := pstrip_decomp p l
  rw [hl, hdec]
  exact List.mem_append_right u (List.mem_append_left v h)

theorem pstrip_ne_nil {p : Char → Bool} {l : List Char} {c : Char}
    (hc : c ∈ l) (hp : p c = false) : pstrip p l ≠ [] := by
  intro h
  have := pstrip_eq_nil_iff.mp h c hc
  rw [hp] at this; cases this

theorem pstrip_idem (p : Char → Bool) (l : List Char) :
    pstrip p (pstrip p l) = pstrip p l := by
  have h1 : (pstrip p l).dropWhile p = pstrip p l := by
    cases hx : pstrip p l with
    | nil => simp
    | cons c cs =>
      have hc : p c = false := pstrip_head_false hx
      simp [List.dropWhile_cons, hc]
  have h2 : (pstrip p l).reverse.dropWhile p = (pstrip p l).reverse := by
    cases hx : (pstrip p l).reverse with
    | nil => simp
    | cons c cs =>
      have hcl : (pstrip p l).getLast? = some c := by
        rw [← List.head?_reverse, hx, List.head?_cons]
      have hc : p c = false := pstrip_getLast_false hcl
      simp [List.dropWhile_cons, hc]
  show (((pstrip p l).dropWhile p).reverse.dropWhile p).reverse = pstrip p l
  rw [h1, h2, List.reverse_reverse]

/-! Facts about the embedded regex engine. -/

theorem findDot_some {t : List Char} {lo : Nat} :
    ∀ {hi j : Nat}, findDot t lo hi = some j →
      lo ≤ j ∧ ∃ c, t[j]? = some c ∧ c ≠ '\n'
  | 0, j => by
    intro h
    simp only [findDot] at h
    split at h
    · next hc =>
      obtain ⟨hlo, hlen, hne⟩ := hc
      cases h
      refine ⟨Nat.le_of_eq hlo, t[0], List.getElem?_eq_getElem hlen, ?_⟩
      intro hcon
      exact hne (by rw [List.getElem?_eq_getElem hlen, hcon])
    · simp at h
  | hi + 1, j => by
    intro h
    simp only [findDot] at h
    split at h
    · simp at h
    · next hge =>
      split at h
      · next hc =>
        obtain ⟨hlen, hne⟩ := hc
        cases h
        refine ⟨Nat.le_of_not_lt hge, t[hi + 1], List.getElem?_eq_getElem hlen, ?_⟩
        intro hcon
        exact hne (by rw [List.getElem?_eq_getElem hlen, hcon])
      · exact findDot_some h

theorem findDot_hit {t : List Char} {lo hi : Nat} {c : Char}
    (h1 : lo ≤ hi) (h2 : t[hi]? = some c) (h3 : c ≠ '\n') :
    findDot t lo hi = some hi := by
  have hlen : hi < t.length := (List.getElem?_eq_some.mp h2).1
  have hne : t[hi]? ≠ some '\n' := by
    rw [h2]
    intro hcon
    exact h3 (Option.some.inj hcon)
  cases hi with
  | zero =>
    have hlo : lo = 0 := Nat.le_zero.mp h1
    simp only [findDot]
    rw [if_pos ⟨hlo, hlen, hne⟩]
  | succ q =>
    simp only [findDot]
    rw [if_neg (Nat.not_lt.mpr h1), if_pos ⟨hlen, hne⟩]

theorem matchAt_some_spec {t : List Char} {s : Nat} {m : HMatch}
    (h : matchAt t s = some m) :
    m.mstart = s ∧
    lineStart t s = true ∧
    1 ≤ m.level ∧ m.level ≤ 6 ∧
    runLen (fun c => c == '#') (t.drop s) = m.level ∧
    (∃ c, t[s + m.level]? = some c ∧ pySpace c = true) ∧
    t[s]? = some '#' ∧
    s < m.mstop ∧ m.mstop ≤ t.length ∧
    m.label ≠ [] := by
  simp only [matchAt] at h
  split at h
  case isFalse => simp at h
  case isTrue hls =>
    split at h
    case isFalse => simp at h
    case isTrue hk =>
      split at h
      case isFalse => simp at h
      case isTrue hw =>
        cases hfd : findDot t (s + runLen (fun c => c == '#') (t.drop s) + 1)
            (s + runLen (fun c => c == '#') (t.drop s) +
              runLen pySpace (t.drop (s + runLen (fun c => c == '#') (t.drop s)))) with
        | none => rw [hfd] at h; simp at h
        | some j =>
          rw [hfd] at h
          cases h
          obtain ⟨hjlo, c', hjc, hcnl⟩ := findDot_some hfd
          have hjlen : j < t.length := by
            obtain ⟨hlt, _⟩ := List.getElem?_eq_some.mp hjc
            exact hlt
          obtain ⟨cs', hdropj⟩ := getElem?_head_drop hjc
          have hq : (fun c => !(c == '\n')) c' = true := by
            simp [hcnl]
          have hrpos : 1 ≤ runLen (fun c => !(c == '\n')) (t.drop j) := by
            rw [hdropj, runLen_cons_pos hq]
            exact Nat.le_add_left 1 _
          refine ⟨rfl, hls, ?_, ?_, rfl, ?_, ?_, ?_, ?_, ?_⟩
          · exact hk.1
          · exact hk.2
          · -- the character right after the hash run is whitespace
            obtain ⟨cw, csw, hdw, hpw⟩ := head_of_runLen_pos
              (Nat.lt_of_lt_of_le Nat.zero_lt_one hw)
            refine ⟨cw, ?_, hpw⟩
            show t[s + runLen (fun c => c == '#') (t.drop s)]? = some cw
            have h0 : (t.drop (s + runLen (fun c => c == '#') (t.drop s)))[0]? = some cw := by
              rw [hdw]; simp
            rw [drop_getElem?] at h0
            simpa using h0
          · -- the text at the match start is a hash character
            obtain ⟨ch, csh, hdh, hph⟩ := head_of_runLen_pos
              (Nat.lt_of_lt_of_le Nat.zero_lt_one hk.1)
            have hch : ch = '#' := by simpa using hph
            have h0 : (t.drop s)[0]? = some ch := by rw [hdh]; simp
            rw [drop_getElem?] at h0
            subst hch
            simpa using h0
          · -- the match start precedes the match end
            show s < j + runLen (fun c => !(c == '\n')) (t.drop j)
            omega
          · -- the match end is within the text
            show j + runLen (fun c => !(c == '\n')) (t.drop j) ≤ t.length
            have hr : runLen (fun c => !(c == '\n')) (t.drop j) ≤ (t.drop j).length :=
              runLen_le _ _
            rw [List.length_drop] at hr
            omega
          · -- group 2 is non-empty
            show (t.drop j).take (j + runLen (fun c => !(c == '\n')) (t.drop j) - j) ≠ []
            have heq : j + runLen (fun c => !(c == '\n')) (t.drop j) - j =
                runLen (fun c => !(c == '\n')) (t.drop j) := by omega
            rw [heq, hdropj]
            obtain ⟨r, hr⟩ : ∃ r, runLen (fun c => !(c == '\n')) (c' :: cs') = r + 1 := by
              rw [runLen_cons_pos hq]; exact ⟨_, rfl⟩
            rw [hr, List.take_succ_cons]
            simp

theorem scanFrom_some {t : List Char} :
    ∀ {fuel pos : Nat} {m : HMatch}, scanFrom t fuel pos = some m →
      matchAt t m.mstart = some m ∧ pos ≤ m.mstart
  | 0, pos, m => by intro h; simp [scanFrom] at h
  | fuel + 1, pos, m => by
    intro h
    simp only [scanFrom] at h
    cases hma : matchAt t pos with
    | some m' =>
      rw [hma] at h
      cases h
      have hst := (matchAt_some_spec hma).1
      rw [hst]
      exact ⟨hma, Nat.le_refl _⟩
    | none =>
      rw [hma] at h
      obtain ⟨h1, h2⟩ := scanFrom_some h
      exact ⟨h1, Nat.le_of_succ_le h2⟩

theorem finditerAux_mem {t : List Char} :
    ∀ {fuel pos : Nat} {m : HMatch}, m ∈ finditerAux t fuel pos →
      matchAt t m.mstart = some m ∧ pos ≤ m.mstart
  | 0, pos, m => by intro h; simp [finditerAux] at h
  | fuel + 1, pos, m => by
    intro h
    simp only [finditerAux] at h
    cases hs : scanFrom t (t.length + 1 - pos) pos with
    | none => rw [hs] at h; simp at h
    | some m0 =>
      rw [hs] at h
      obtain ⟨hm0, hpos0⟩ := scanFrom_some hs
      rcases List.mem_cons.mp h with h' | h'
      · subst h'; exact ⟨hm0, hpos0⟩
      · obtain ⟨h1, h2⟩ := finditerAux_mem h'
        have hlt : m0.mstart < m0.mstop := (matchAt_some_spec hm0).2.2.2.2.2.2.2.1
        exact ⟨h1, by omega⟩

theorem finditerAux_chain {t : List Char} :
    ∀ (fuel pos : Nat),
      List.Chain' (fun a b => a.mstop ≤ b.mstart) (finditerAux t fuel pos)
  | 0, pos => by simp [finditerAux]
  | fuel + 1, pos => by
    simp only [finditerAux]
    cases hs : scanFrom t (t.length + 1 - pos) pos with
    | none => simp
    | some m0 =>
      rw [List.chain'_cons']
      refine ⟨?_, finditerAux_chain fuel m0.mstop⟩
      intro b hb
      exact (finditerAux_mem (List.mem_of_mem_head? hb)).2

theorem headingMatches_inv {t : List Char} {m : HMatch} (h : m ∈ headingMatches t) :
    matchAt t m.mstart = some m :=
  (finditerAux_mem h).1

theorem headingMatches_chain (t : List Char) :
    List.Chain' (fun a b => a.mstop ≤ b.mstart) (headingMatches t) :=
  finditerAux_chain _ _

/-! Facts about the chunk builder. -/

theorem headingMatches_hash {t : List Char} {m : HMatch} (h : m ∈ headingMatches t) :
    t[m.mstart]? = some '#' ∧ m.mstart < m.mstop ∧ m.mstop ≤ t.length := by
  have hs := matchAt_some_spec (headingMatches_inv h)
  exact ⟨hs.2.2.2.2.2.2.1, hs.2.2.2.2.2.2.2.1, hs.2.2.2.2.2.2.2.2.1⟩

theorem content_ne_nil {t : List Char} {m : HMatch} {e : Nat}
    (hhash : t[m.mstart]? = some '#') (hlt : m.mstart < e) :
    pstrip pySpace ((t.drop m.mstart).take (e - m.mstart)) ≠ [] := by
  obtain ⟨cs0, hdrop⟩ := getElem?_head_drop hhash
  obtain ⟨d, hd⟩ : ∃ d, e - m.mstart = d + 1 := ⟨e - m.mstart - 1, by omega⟩
  refine pstrip_ne_nil (c := '#') ?_ (by decide)
  rw [hd, hdrop, List.take_succ_cons]
  exact List.mem_cons_self _ _

theorem chunkLoop_eq_spec (t : List Char) :
    ∀ ms : List HMatch,
      (∀ m ∈ ms, t[m.mstart]? = some '#' ∧ m.mstart < m.mstop ∧ m.mstop ≤ t.length) →
      List.Chain' (fun a b => a.mstop ≤ b.mstart) ms →
      chunkLoop t ms = specChunkList t ms
  | [] => fun _ _ => rfl
  | [m] => by
    intro hinv _
    have hm := hinv m (by simp)
    have hlt : m.mstart < t.length := Nat.lt_of_lt_of_le hm.2.1 hm.2.2
    simp only [chunkLoop, specChunkList]
    rw [if_neg (content_ne_nil hm.1 hlt)]
  | m :: m2 :: r2 => by
    intro hinv hch
    have hm := hinv m (by simp)
    have hR : m.mstop ≤ m2.mstart := (List.chain'_cons.mp hch).1
    have hlt : m.mstart < m2.mstart := Nat.lt_of_lt_of_le hm.2.1 hR
    show (if pstrip pySpace ((t.drop m.mstart).take (m2.mstart - m.mstart)) = []
          then chunkLoop t (m2 :: r2)
          else { heading := pstrip pySpace m.label, level := m.level,
                 content := pstrip pySpace ((t.drop m.mstart).take (m2.mstart - m.mstart)) } ::
            chunkLoop t (m2 :: r2)) =
        { heading := pstrip pySpace m.label, level := m.level,
          content := pstrip pySpace ((t.drop m.mstart).take (m2.mstart - m.mstart)) } ::
          specChunkList t (m2 :: r2)
    rw [if_neg (content_ne_nil hm.1 hlt),
      chunkLoop_eq_spec t (m2 :: r2)
        (fun m' hm' => hinv m' (List.mem_cons_of_mem m hm'))
        (List.chain'_cons.mp hch).2]

theorem specChunkList_length (t : List Char) :
    ∀ ms : List HMatch, (specChunkList t ms).length = ms.length
  | [] => rfl
  | m :: rest => by
    simp only [specChunkList, List.length_cons, specChunkList_length t rest]

theorem chunkLoop_mem_content {t : List Char} :
    ∀ {ms : List HMatch} {c : Chunk}, c ∈ chunkLoop t ms →
      c.content ≠ [] ∧ ∃ s, c.content = pstrip pySpace s
  | [], c => by intro h; simp [chunkLoop] at h
  | m :: rest, c => by
    intro h
    simp only [chunkLoop] at h
    split at h
    · exact chunkLoop_mem_content h
    · next hne =>
      rcases List.mem_cons.mp h with h' | h'
      · subst h'
        exact ⟨hne, _, rfl⟩
      · exact chunkLoop_mem_content h'

theorem chunk_markdown_nil {t : List Char} (h : headingMatches t = []) :
    chunk_markdown t =
      (if pstrip pySpace t = [] then []
       else [{ heading := "Document".toList, level := 0, content := pstrip pySpace t }]) := by
  unfold chunk_markdown
  rw [h]

theorem chunk_markdown_cons {t : List Char} {m : HMatch} {rest : List HMatch}
    (h : headingMatches t = m :: rest) :
    chunk_markdown t =
      (if pstrip pySpace (t.take m.mstart) = [] then []
       else [{ heading := "Preamble".toList, level := 0,
               content := pstrip pySpace (t.take m.mstart) }]) ++
        chunkLoop t (m :: rest) := by
  unfold chunk_markdown
  rw [h]

/-! Facts about the id loop. -/

theorem idsLoop_getElem? (b : List Char) :
    ∀ (chunks : List Chunk) (j i : Nat), i < chunks.length →
      (idsLoop b j chunks)[i]? = some (chunkId b (j + i))
  | [], j, i => by intro h; simp at h
  | ch :: rest, j, 0 => by
    intro _
    simp [idsLoop]
  | ch :: rest, j, i + 1 => by
    intro h
    have h' : i < rest.length := by
      simp only [List.length_cons] at h
      omega
    simp only [idsLoop, List.getElem?_cons_succ]
    rw [idsLoop_getElem? b rest (j + 1) i h']
    have heq : j + 1 + i = j + (i + 1) := by omega
    rw [heq]

theorem idsLoop_length (b : List Char) :
    ∀ (chunks : List Chunk) (j : Nat), (idsLoop b j chunks).length = chunks.length
  | [], _ => rfl
  | _ :: rest, j => by
    simp only [idsLoop, List.length_cons, idsLoop_length b rest (j + 1)]

/-! Claim C2. -/

/-- C2 (counterexample): the claim that the sanitizer's output never ends with
an underscore or hyphen fails: on an input of 62 `'a'`s followed by `"_b"`,
the 63-character truncation cuts the name right after the underscore, so the
output ends with `'_'`. -/
theorem sanitizer_invariants_refuted :
    (sanitize_collection_name (List.replicate 62 'a' ++ ['_', 'b'])).getLast? = some '_' := by
  decide

/-- C2 (amended): for every input, `sanitize_collection_name` returns between
3 and 63 characters, all in `[A-Za-z0-9_-]`, never starting with `'_'`/`'-'`;
it can end with `'_'`/`'-'` only when the pre-truncation name exceeded 63
characters (so whenever the output is shorter than 63 characters, it does not
end with `'_'` or `'-'`). -/
theorem sanitizer_invariants_amended (name : List Char) :
    3 ≤ (sanitize_collection_name name).length ∧
    (sanitize_collection_name name).length ≤ 63 ∧
    (sanitize_collection_name name).all allowedChar = true ∧
    (∀ c, (sanitize_collection_name name).head? = some c → isUH c = false) ∧
    ((sanitize_collection_name name).length < 63 →
      ∀ c, (sanitize_collection_name name).getLast? = some c → isUH c = false) := by
  have hchars1 : ∀ c ∈ name.map (fun c => if allowedChar c then c else '_'),
      allowedChar c = true := by
    intro c hc
    obtain ⟨x, _, hx⟩ := List.mem_map.mp hc
    subst hx
    by_cases hax : allowedChar x = true
    · rw [if_pos hax]; exact hax
    · rw [if_neg hax]; decide
  set n2 := pstrip isUH (name.map (fun c => if allowedChar c then c else '_')) with hn2def
  have hchars2 : ∀ c ∈ n2, allowedChar c = true := fun c hc => hchars1 c (pstrip_mem hc)
  have hlast2 : ∀ c, n2.getLast? = some c → isUH c = false := fun c h =>
    pstrip_getLast_false (hn2def ▸ h)
  set n3 := if n2 = [] then "documents".toList else n2 with hn3def
  set n4 := if n3.length < 3 then n3 ++ "_collection".toList else n3 with hn4def
  have hout : sanitize_collection_name name = n4.take 63 := by
    rw [hn4def, hn3def, hn2def]
    rfl
  rw [hout]
  have hn3ne : n3 ≠ [] := by
    rw [hn3def]
    by_cases h2 : n2 = []
    · rw [if_pos h2]; decide
    · rw [if_neg h2]; exact h2
  have hn3chars : ∀ c ∈ n3, allowedChar c = true := by
    rw [hn3def]
    by_cases h2 : n2 = []
    · rw [if_pos h2]
      exact List.all_eq_true.mp (by decide)
    · rw [if_neg h2]; exact hchars2
  have hn3head : ∀ c, n3.head? = some c → isUH c = false := by
    by_cases h2 : n2 = []
    · rw [hn3def, if_pos h2]
      intro c hc
      have hd : ("documents".toList).head? = some 'd' := by decide
      rw [hd] at hc
      have hcd : c = 'd' := (Option.some.inj hc).symm
      subst hcd
      decide
    · rw [hn3def, if_neg h2]
      intro c hc
      cases hn2c : n2 with
      | nil => exact absurd hn2c h2
      | cons x xs =>
        rw [hn2c] at hc
        simp only [List.head?_cons, Option.some.injEq] at hc
        subst hc
        exact pstrip_head_false (hn2def ▸ hn2c)
  have hn4head : n4.head? = n3.head? := by
    rw [hn4def]
    by_cases h3 : n3.length < 3
    · rw [if_pos h3]
      cases hc : n3 with
      | nil => exact absurd hc hn3ne
      | cons x xs => simp
    · rw [if_neg h3]
  have hn4len : 3 ≤ n4.length := by
    rw [hn4def]
    by_cases h3 : n3.length < 3
    · rw [if_pos h3, List.length_append]
      have h1 : 0 < n3.length := List.length_pos.mpr hn3ne
      have h11 : ("_collection".toList).length = 11 := by decide
      omega
    · rw [if_neg h3]; omega
  have hn4chars : ∀ c ∈ n4, allowedChar c = true := by
    rw [hn4def]
    by_cases h3 : n3.length < 3
    · rw [if_pos h3]
      intro c hc
      rcases List.mem_append.mp hc with h | h
      · exact hn3chars c h
      · exact List.all_eq_true.mp
          (by decide : ("_collection".toList).all allowedChar = true) c h
    · rw [if_neg h3]; exact hn3chars
  refine ⟨?_, ?_, ?_, ?_, ?_⟩
  · rw [List.length_take]; omega
  · rw [List.length_take]; omega
  · exact List.all_eq_true.mpr (fun c hc => hn4chars c (List.mem_of_mem_take hc))
  · intro c hc
    have ht : (n4.take 63).head? = n4.head? := by
      cases h4 : n4 with
      | nil => rw [h4] at hn4len; simp at hn4len
      | cons x xs =>
        rw [show (63 : Nat) = 62 + 1 from rfl, List.take_succ_cons]
        simp
    rw [ht, hn4head] at hc
    exact hn3head c hc
  · intro hlt c hc
    rw [List.length_take] at hlt
    have h63 : n4.length < 63 := by omega
    have hte : n4.take 63 = n4 := List.take_of_length_le (Nat.le_of_lt h63)
    rw [hte] at hc
    rw [hn4def] at hc
    by_cases h3 : n3.length < 3
    · rw [if_pos h3] at hc
      have hn : (n3 ++ "_collection".toList).getLast? = some 'n' := by
        rw [List.getLast?_append]
        have hg : ("_collection".toList).getLast? = some 'n' := by decide
        rw [hg, Option.or_some]
      rw [hn] at hc
      have hcn : c = 'n' := (Option.some.inj hc).symm
      subst hcn
      decide
    · rw [if_neg h3] at hc
      rw [hn3def] at hc
      by_cases h2 : n2 = []
      · rw [if_pos h2] at hc
        have hs : ("documents".toList).getLast? = some 's' := by decide
        rw [hs] at hc
        have hcs : c = 's' := (Option.some.inj hc).symm
        subst hcs
        decide
      · rw [if_neg h2] at hc
        exact hlast2 c hc

/-- C2 (witness): the amended sanitizer invariants evaluated on the spec's
worked example `"My File!! v2"`, whose output is `"My_File___v2"`: length in
range, head `'M'` and (output shorter than 63) last `'2'` not in `"_-"`. -/
theorem sanitizer_invariants_amended_witness :
    3 ≤ (sanitize_collection_name ("My File!! v2".toList)).length ∧
    isUH 'M' = false ∧ isUH '2' = false :=
  ⟨(sanitizer_invariants_amended ("My File!! v2".toList)).1,
   (sanitizer_invariants_amended ("My File!! v2".toList)).2.2.2.1 'M' (by decide),
   (sanitizer_invariants_amended ("My File!! v2".toList)).2.2.2.2 (by decide) '2' (by decide)⟩

/-! Claim C1. -/

/-- C1 (counterexample): the claim says a `'#'` run with no following
whitespace-plus-text on its own line never matches, so the scanner must find
nothing in `"#\nfoo"` (the line `"#"` has no same-line label and `"foo"` has
no hashes).  The code's `\s+` consumes the line terminator, producing a match
of level 1 whose label `"foo"` comes from the next line. -/
theorem heading_scanner_same_line_refuted :
    headingMatches ("#\nfoo".toList) =
      [{ mstart := 0, mstop := 5, level := 1, label := "foo".toList }] := by
  decide

/-- C1 (amended): every match starts at a line start with a run of exactly
`level ∈ [1,6]` `'#'` characters followed by at least one whitespace
character — so a run longer than six never begins a match — but that
whitespace may include line terminators.  Whenever the hashes are followed on
their own line by whitespace (no line terminator) and then a non-whitespace
character, the match is produced there and takes exactly the rest of that
same line as its label. -/
theorem heading_scanner_amended (t : List Char) :
    (∀ m ∈ headingMatches t,
      lineStart t m.mstart = true ∧
      1 ≤ m.level ∧ m.level ≤ 6 ∧
      runLen (fun c => c == '#') (t.drop m.mstart) = m.level ∧
      (∃ c, t[m.mstart + m.level]? = some c ∧ pySpace c = true)) ∧
    (∀ (s k : Nat) (wsl : List Char) (c : Char) (rest : List Char),
      lineStart t s = true →
      t.drop s = List.replicate k '#' ++ (wsl ++ c :: rest) →
      1 ≤ k → k ≤ 6 → wsl ≠ [] →
      (∀ x ∈ wsl, pySpace x = true ∧ x ≠ '\n') →
      pySpace c = false →
      matchAt t s = some
        { mstart := s,
          mstop := s + k + wsl.length + 1 + runLen (fun x => !(x == '\n')) rest,
          level := k,
          label := c :: rest.takeWhile (fun x => !(x == '\n')) }) := by
  constructor
  · intro m hm
    have hs := matchAt_some_spec (headingMatches_inv hm)
    exact ⟨hs.2.1, hs.2.2.1, hs.2.2.2.1, hs.2.2.2.2.1, hs.2.2.2.2.2.1⟩
  · intro s k wsl c rest hls hdec hk1 hk6 hwne hwall hcns
    have hnl : c ≠ '\n' := by
      intro hcc
      subst hcc
      exact absurd hcns (by decide)
    obtain ⟨w0, ws0, hwsl⟩ : ∃ w ws, wsl = w :: ws := by
      cases wsl with
      | nil => exact absurd rfl hwne
      | cons w ws => exact ⟨w, ws, rfl⟩
    have hw1 : 1 ≤ wsl.length := by
      rw [hwsl, List.length_cons]
      omega
    have hw0ne : (w0 == '#') = false := by
      cases hbe : (w0 == '#') with
      | false => rfl
      | true =>
        have hw0eq : w0 = '#' := by
          have := hbe
          rw [beq_iff_eq] at this
          exact this
        have hw0sp : pySpace w0 = true :=
          (hwall w0 (by rw [hwsl]; exact List.mem_cons_self _ _)).1
        rw [hw0eq] at hw0sp
        exact absurd hw0sp (by decide)
    have hw0ne' : (fun x => x == '#') w0 = false := hw0ne
    have hkrun : runLen (fun c => c == '#') (t.drop s) = k := by
      rw [hdec, runLen_replicate_append (fun c => c == '#') '#' (by decide), hwsl,
        List.cons_append, runLen_cons_negP (fun x => x == '#') w0 (ws0 ++ c :: rest) hw0ne]
      omega
    have hdrop2 : t.drop (s + k) = wsl ++ c :: rest := by
      rw [← List.drop_drop, hdec]
      exact List.drop_left' (List.length_replicate k '#')
    have hwrun : runLen pySpace (t.drop (s + k)) = wsl.length := by
      rw [hdrop2]
      exact runLen_append_all hcns wsl (fun x hx => (hwall x hx).1) rest
    have hc_at : t[s + k + wsl.length]? = some c := by
      have h0 : (t.drop (s + k))[wsl.length]? = some c := by
        rw [hdrop2, List.getElem?_append_right (Nat.le_refl wsl.length)]
        simp
      rw [drop_getElem?] at h0
      exact h0
    have hfd : findDot t (s + k + 1) (s + k + wsl.length) = some (s + k + wsl.length) :=
      findDot_hit (by omega) hc_at hnl
    have hdrop3 : t.drop (s + k + wsl.length) = c :: rest := by
      rw [← List.drop_drop, hdrop2]
      exact List.drop_left' rfl
    have hqc : (fun x => !(x == '\n')) c = true := by simp [hnl]
    have hrun3 : runLen (fun x => !(x == '\n')) (t.drop (s + k + wsl.length)) =
        1 + runLen (fun x => !(x == '\n')) rest := by
      rw [hdrop3, runLen_cons_posP (fun x => !(x == '\n')) c rest hqc]
      omega
    have hmain : matchAt t s = some
        { mstart := s,
          mstop := s + k + wsl.length +
            runLen (fun x => !(x == '\n')) (t.drop (s + k + wsl.length)),
          level := k,
          label := (t.drop (s + k + wsl.length)).take
            (s + k + wsl.length +
              runLen (fun x => !(x == '\n')) (t.drop (s + k + wsl.length)) -
              (s + k + wsl.length)) } := by
      simp only [matchAt]
      rw [if_pos hls, hkrun, if_pos ⟨hk1, hk6⟩, hwrun, if_pos hw1, hfd]
    rw [hmain, hrun3, hdrop3]
    have heq1 : s + k + wsl.length + (1 + runLen (fun x => !(x == '\n')) rest) =
        s + k + wsl.length + 1 + runLen (fun x => !(x == '\n')) rest := by omega
    have heq2 : s + k + wsl.length + (1 + runLen (fun x => !(x == '\n')) rest) -
        (s + k + wsl.length) = runLen (fun x => !(x == '\n')) rest + 1 := by omega
    rw [heq2, List.take_succ_cons, take_runLen, heq1]

/-- C1 (witness): the amended scanner description applied to the concrete
well-formed heading line `"# Hi"`: the match covers the whole line, has level
1, and its label is the rest of the line. -/
theorem heading_scanner_amended_witness :
    matchAt ("# Hi".toList) 0 =
      some { mstart := 0, mstop := 4, level := 1, label := "Hi".toList } := by
  have h := (heading_scanner_amended ("# Hi".toList)).2 0 1 [' '] 'H' ['i']
    (by decide) (by decide) (by decide) (by decide) (by decide) (by decide) (by decide)
  exact h.trans (by decide)

/-! Claims C3 to C10. -/

/-- C3 (counterexample): the claim asserts the skip-empty case occurs for two
adjacent heading lines with no body, but on exactly that input both chunks
are emitted — each chunk's content starts at its own heading's `'#'`, so the
trimmed content is never empty and nothing is ever skipped. -/
theorem chunk_skip_case_refuted :
    chunk_markdown ("# A\n# B\n".toList) =
      [{ heading := "A".toList, level := 1, content := "# A".toList },
       { heading := "B".toList, level := 1, content := "# B".toList }] := by
  decide

/-- C3 (amended): for each heading in document order, the chunk's content is
the text from that heading's start offset to the next heading's start offset
(or the end of the document), trimmed; the builder would skip a chunk whose
trimmed content is empty, but this never happens because the content always
begins with the heading's own `'#'` run, so the heading loop always emits
exactly the per-heading chunk list described by the spec. -/
theorem chunk_spans_amended (t : List Char) :
    chunkLoop t (headingMatches t) = specChunkList t (headingMatches t) :=
  chunkLoop_eq_spec t (headingMatches t)
    (fun _ hm => headingMatches_hash hm)
    (headingMatches_chain t)

/-- C4: for every document with N heading matches, `chunk_markdown` produces
between N and N+1 chunks, and the extra chunk occurs only when the preamble
(the text before the first heading, or the whole text when there is none) is
non-empty after trimming. -/
theorem chunk_count_bounds (t : List Char) :
    (headingMatches t).length ≤ (chunk_markdown t).length ∧
    (chunk_markdown t).length ≤ (headingMatches t).length + 1 ∧
    ((chunk_markdown t).length = (headingMatches t).length + 1 →
      pstrip pySpace (preambleOf t) ≠ []) := by
  cases hm : headingMatches t with
  | nil =>
    have hpre : preambleOf t = t := by
      unfold preambleOf
      rw [hm]
    rw [chunk_markdown_nil hm, hpre]
    by_cases hs : pstrip pySpace t = []
    · rw [if_pos hs]
      refine ⟨Nat.le_refl _, by simp, ?_⟩
      intro habs
      simp at habs
    · rw [if_neg hs]
      exact ⟨by simp, by simp, fun _ => hs⟩
  | cons m rest =>
    have hinv : ∀ m' ∈ m :: rest,
        t[m'.mstart]? = some '#' ∧ m'.mstart < m'.mstop ∧ m'.mstop ≤ t.length := by
      intro m' hm'
      refine headingMatches_hash ?_
      rw [hm]
      exact hm'
    have hch : List.Chain' (fun a b => a.mstop ≤ b.mstart) (m :: rest) := by
      have h := headingMatches_chain t
      rw [hm] at h
      exact h
    have hlen : (chunkLoop t (m :: rest)).length = (m :: rest).length := by
      rw [chunkLoop_eq_spec t (m :: rest) hinv hch, specChunkList_length]
    have hpre : preambleOf t = t.take m.mstart := by
      unfold preambleOf
      rw [hm]
    rw [chunk_markdown_cons hm, List.length_append, hlen, hpre]
    by_cases hp : pstrip pySpace (t.take m.mstart) = []
    · rw [if_pos hp]
      simp only [List.length_nil, List.length_cons]
      refine ⟨by omega, by omega, ?_⟩
      intro habs
      exact absurd habs (by omega)
    · rw [if_neg hp]
      simp only [List.length_cons, List.length_nil]
      exact ⟨by omega, by omega, fun _ => hp⟩

/-- C4 (witness): on `"x\n# a\nb"` the preamble `"x"` is non-empty, there is
one heading match and two chunks, so the implication's hypothesis holds and
yields the non-empty trimmed preamble. -/
theorem chunk_count_bounds_witness :
    pstrip pySpace (preambleOf ("x\n# a\nb".toList)) ≠ [] :=
  (chunk_count_bounds ("x\n# a\nb".toList)).2.2 (by decide)

/-- C5: `chunk_markdown` returns zero chunks exactly when the trimmed text is
empty; hence under `main`'s earlier non-blank check the zero-chunk error
branch is unreachable. -/
theorem zero_chunks_iff_blank (t : List Char) :
    chunk_markdown t = [] ↔ pstrip pySpace t = [] := by
  cases hm : headingMatches t with
  | nil =>
    rw [chunk_markdown_nil hm]
    by_cases hs : pstrip pySpace t = []
    · rw [if_pos hs]
      simp [hs]
    · rw [if_neg hs]
      simp [hs]
  | cons m rest =>
    have hinv : ∀ m' ∈ m :: rest,
        t[m'.mstart]? = some '#' ∧ m'.mstart < m'.mstop ∧ m'.mstop ≤ t.length := by
      intro m' hm'
      refine headingMatches_hash ?_
      rw [hm]
      exact hm'
    have hch : List.Chain' (fun a b => a.mstop ≤ b.mstart) (m :: rest) := by
      have h := headingMatches_chain t
      rw [hm] at h
      exact h
    have hlen : (chunkLoop t (m :: rest)).length = (m :: rest).length := by
      rw [chunkLoop_eq_spec t (m :: rest) hinv hch, specChunkList_length]
    constructor
    · intro habs
      rw [chunk_markdown_cons hm] at habs
      obtain ⟨_, h2⟩ := List.append_eq_nil.mp habs
      have hcg := congrArg List.length h2
      rw [hlen] at hcg
      simp at hcg
    · intro hs
      exfalso
      have hm' : m ∈ headingMatches t := by
        rw [hm]
        exact List.mem_cons_self _ _
      have hh := (headingMatches_hash hm').1
      have habs : pySpace '#' = true := pstrip_eq_nil_iff.mp hs '#' (List.getElem?_mem hh)
      exact absurd habs (by decide)

/-- C6: every chunk emitted by `chunk_markdown` has non-empty content that is
equal to its own trim (already trimmed); empty segments are never emitted. -/
theorem chunk_content_trimmed_nonempty (t : List Char) (c : Chunk)
    (hc : c ∈ chunk_markdown t) :
    c.content ≠ [] ∧ pstrip pySpace c.content = c.content := by
  cases hm : headingMatches t with
  | nil =>
    rw [chunk_markdown_nil hm] at hc
    by_cases hs : pstrip pySpace t = []
    · rw [if_pos hs] at hc
      simp at hc
    · rw [if_neg hs] at hc
      have hceq :
          c = { heading := "Document".toList, level := 0, content := pstrip pySpace t } := by
        simpa using hc
      subst hceq
      exact ⟨hs, pstrip_idem _ _⟩
  | cons m rest =>
    rw [chunk_markdown_cons hm] at hc
    rcases List.mem_append.mp hc with h | h
    · by_cases hp : pstrip pySpace (t.take m.mstart) = []
      · rw [if_pos hp] at h
        simp at h
      · rw [if_neg hp] at h
        have hceq :
            c = { heading := "Preamble".toList, level := 0,
                  content := pstrip pySpace (t.take m.mstart) } := by
          simpa using h
        subst hceq
        exact ⟨hp, pstrip_idem _ _⟩
    · obtain ⟨hne, s, hs⟩ := chunkLoop_mem_content h
      refine ⟨hne, ?_⟩
      rw [hs, pstrip_idem]

/-- C6 (witness): the invariant evaluated on the single chunk produced for
the headingless document `"hi"`. -/
theorem chunk_content_trimmed_nonempty_witness :
    ({ heading := "Document".toList, level := 0, content := "hi".toList } : Chunk).content ≠ [] ∧
    pstrip pySpace
        ({ heading := "Document".toList, level := 0, content := "hi".toList } : Chunk).content =
      ({ heading := "Document".toList, level := 0, content := "hi".toList } : Chunk).content :=
  chunk_content_trimmed_nonempty ("hi".toList) _ (by decide)

/-- C7: a document with no heading matches and non-empty trimmed content
yields exactly one chunk, with level 0, the fixed placeholder label
`"Document"`, and the trimmed whole document as content. -/
theorem no_heading_single_chunk (t : List Char)
    (h1 : headingMatches t = []) (h2 : pstrip pySpace t ≠ []) :
    chunk_markdown t =
      [{ heading := "Document".toList, level := 0, content := pstrip pySpace t }] := by
  rw [chunk_markdown_nil h1, if_neg h2]

/-- C7 (witness): the headingless document `"hi"` yields the single
placeholder chunk. -/
theorem no_heading_single_chunk_witness :
    chunk_markdown ("hi".toList) =
      [{ heading := "Document".toList, level := 0,
         content := pstrip pySpace ("hi".toList) }] :=
  no_heading_single_chunk ("hi".toList) (by decide) (by decide)

/-- C8: the spec's worked example — two chunks, in order, with the stated
headings, levels and contents, and no preamble chunk. -/
theorem example_two_chunks :
    chunk_markdown ("# Title\n\nHello\n\n## Sub\n\nWorld\n".toList) =
      [{ heading := "Title".toList, level := 1, content := "# Title\n\nHello".toList },
       { heading := "Sub".toList, level := 2, content := "## Sub\n\nWorld".toList }] := by
  decide

/-- C9: ingestion is deterministic — two runs on the same basename with equal
file content produce equal plans (same collection name, same id list), the
collection name is the sanitized basename, and the record at chunk index `i`
has id `basename ++ "_chunk_" ++ i`. -/
theorem ingest_deterministic_ids (basename t1 t2 : List Char) (hsame : t1 = t2)
    (i : Nat) (hi : i < (chunk_markdown t1).length) :
    ingestPlan basename t1 = ingestPlan basename t2 ∧
    (ingestPlan basename t1).collection = sanitize_collection_name basename ∧
    (ingestPlan basename t1).ids[i]? = some (chunkId basename i) := by
  subst hsame
  refine ⟨rfl, rfl, ?_⟩
  show (idsLoop basename 0 (chunk_markdown t1))[i]? = some (chunkId basename i)
  rw [idsLoop_getElem? basename (chunk_markdown t1) 0 i hi, Nat.zero_add]

/-- C9 (witness): the id of chunk 0 of a one-chunk document with basename
`"doc"` is `"doc_chunk_0"`. -/
theorem ingest_deterministic_ids_witness :
    (ingestPlan ("doc".toList) ("# A\n\nbody\n".toList)).ids[0]? =
      some (chunkId ("doc".toList) 0) :=
  (ingest_deterministic_ids ("doc".toList) ("# A\n\nbody\n".toList)
    ("# A\n\nbody\n".toList) rfl 0 (by decide)).2.2

/-- C10: when at least one heading matches, every heading emits exactly one
chunk — its raw label (regex group 2) is non-empty and its content, starting
at the heading's own `'#'`, never trims to empty, so the skip branch never
fires — and the chunk count is exactly the number of headings plus one
exactly when the trimmed preamble is non-empty. -/
theorem heading_chunk_count_exact (t : List Char) (m : HMatch) (rest : List HMatch)
    (h : headingMatches t = m :: rest) :
    (chunk_markdown t).length =
      (m :: rest).length + (if pstrip pySpace (t.take m.mstart) = [] then 0 else 1) ∧
    (∀ m' ∈ headingMatches t, m'.label ≠ []) ∧
    ∀ c ∈ chunkLoop t (headingMatches t), c.content ≠ [] := by
  have hinv : ∀ m' ∈ m :: rest,
      t[m'.mstart]? = some '#' ∧ m'.mstart < m'.mstop ∧ m'.mstop ≤ t.length := by
    intro m' hm'
    refine headingMatches_hash ?_
    rw [h]
    exact hm'
  have hch : List.Chain' (fun a b => a.mstop ≤ b.mstart) (m :: rest) := by
    have hc := headingMatches_chain t
    rw [h] at hc
    exact hc
  have hlen : (chunkLoop t (m :: rest)).length = (m :: rest).length := by
    rw [chunkLoop_eq_spec t (m :: rest) hinv hch, specChunkList_length]
  refine ⟨?_, ?_, ?_⟩
  · rw [chunk_markdown_cons h, List.length_append, hlen]
    by_cases hp : pstrip pySpace (t.take m.mstart) = []
    · rw [if_pos hp, if_pos hp]
      simp
    · rw [if_neg hp, if_neg hp]
      simp only [List.length_cons, List.length_nil]
      omega
  · intro m' hm'
    exact (matchAt_some_spec (headingMatches_inv hm')).2.2.2.2.2.2.2.2.2
  · intro c hc
    exact (chunkLoop_mem_content hc).1

/-- C10 (witness): `"# a\nb"` has one heading, an empty preamble, and exactly
one chunk. -/
theorem heading_chunk_count_exact_witness :
    (chunk_markdown ("# a\nb".toList)).length = 1 := by
  have h := (heading_chunk_count_exact ("# a\nb".toList)
      { mstart := 0, mstop := 3, level := 1, label := "a".toList } [] (by decide)).1
  exact h.trans (by decide)

end MdIngest
